import Mathlib

/-!
Verification of the selector-encoding, grouping, path-prefix and
result-reconciliation logic of the testtool-javascript-playwright adapter
(`src/playwrightx/utils.ts`).  Strings are modelled as `List Char`
(JavaScript strings are sequences of code points for the operations used
here), JS `Record`s as insertion-ordered association lists, and the
JavaScript builtins `encodeURIComponent` / `decodeURIComponent` as
executable functions on `List Char` (percent-encoding of UTF-8 bytes).
`decodeURIComponent` throws on malformed input, which is modelled by
`Option`.
-/

namespace PwX

/-- The question-mark character used to separate path from title. -/
def qm : Char := Char.ofNat 63

/-- The slash character. -/
def sl : Char := Char.ofNat 47

/-- The percent character. -/
def pc : Char := Char.ofNat 37

/-- The newline character. -/
def nl : Char := Char.ofNat 10

/-- The space character. -/
def sp : Char := Char.ofNat 32

/-- Boolean prefix test on character lists (JS `String.prototype.startsWith`). -/
def isPrefixB : List Char → List Char → Bool
  | [], _ => true
  | _ :: _, [] => false
  | a :: as, b :: bs => a = b && isPrefixB as bs

/-- Substring containment (JS `String.prototype.includes`):
`hasSubstr s pat` is true when `pat` occurs contiguously in `s`. -/
def hasSubstr : List Char → List Char → Bool
  | [], pat => pat.isEmpty
  | c :: rest, pat => isPrefixB pat (c :: rest) || hasSubstr rest pat

/-- JS `s.replace(pat, "")` with a string pattern: remove the first
occurrence of `pat` from `s`; `s` unchanged when `pat` does not occur.
(An empty pattern matches at position 0, leaving `s` unchanged.) -/
def replaceFirst : List Char → List Char → List Char
  | [], _ => []
  | c :: rest, pat =>
    if isPrefixB pat (c :: rest) then (c :: rest).drop pat.length
    else c :: replaceFirst rest pat

/-- JS `String.prototype.trim` (model: strips ASCII whitespace at both ends). -/
def jsTrim (s : List Char) : List Char :=
  ((s.dropWhile Char.isWhitespace).reverse.dropWhile Char.isWhitespace).reverse

/-- JS `Array.from(new Set(xs))`: deduplicate keeping first occurrences. -/
def jsSetDedup (xs : List (List Char)) : List (List Char) :=
  xs.foldl (fun acc x => if x ∈ acc then acc else acc ++ [x]) []

/-! ## Model of the JavaScript builtins `encodeURIComponent` / `decodeURIComponent` -/

/-- Characters left unescaped by `encodeURIComponent`:
`A-Z a-z 0-9 - _ . ! ~ * ' ( )`. -/
def unreservedURI (c : Char) : Bool :=
  (Char.ofNat 65 ≤ c && c ≤ Char.ofNat 90) ||
  (Char.ofNat 97 ≤ c && c ≤ Char.ofNat 122) ||
  (Char.ofNat 48 ≤ c && c ≤ Char.ofNat 57) ||
  c = Char.ofNat 45 || c = Char.ofNat 95 || c = Char.ofNat 46 ||
  c = Char.ofNat 33 || c = Char.ofNat 126 || c = Char.ofNat 42 ||
  c = Char.ofNat 39 || c = Char.ofNat 40 || c = Char.ofNat 41

/-- Uppercase hexadecimal digit for a value below 16. -/
def hexDigitChar (d : Nat) : Char :=
  (String.data "0123456789ABCDEF").getD d (Char.ofNat 48)

/-- Value of a hexadecimal digit character (either case), `none` otherwise. -/
def hexVal (c : Char) : Option Nat :=
  if Char.ofNat 48 ≤ c && c ≤ Char.ofNat 57 then some (c.toNat - 48)
  else if Char.ofNat 65 ≤ c && c ≤ Char.ofNat 70 then some (c.toNat - 55)
  else if Char.ofNat 97 ≤ c && c ≤ Char.ofNat 102 then some (c.toNat - 87)
  else none

/-- UTF-8 bytes of a character (values below 256). -/
def utf8Bytes (c : Char) : List Nat :=
  let n := c.toNat
  if n < 128 then [n]
  else if n < 2048 then [192 + n / 64, 128 + n % 64]
  else if n < 65536 then [224 + n / 4096, 128 + (n / 64) % 64, 128 + n % 64]
  else [240 + n / 262144, 128 + (n / 4096) % 64, 128 + (n / 64) % 64, 128 + n % 64]

/-- Percent-escape of one byte: `%XY` with uppercase hex digits. -/
def pctByte (b : Nat) : List Char :=
  [pc, hexDigitChar (b / 16), hexDigitChar (b % 16)]

/-- Encoding of a single character by `encodeURIComponent`. -/
def percentEncodeChar (c : Char) : List Char :=
  if unreservedURI c then [c] else (utf8Bytes c).flatMap pctByte

/-- Model of the JavaScript builtin `encodeURIComponent`. -/
def encodeURIComponentJS (s : List Char) : List Char :=
  s.flatMap percentEncodeChar

/-- First phase of `decodeURIComponent`: each `%XY` escape becomes a byte
(`Sum.inl`), every other character stays as itself (`Sum.inr`); a `%` not
followed by two hexadecimal digits is malformed (`none`). -/
def pctTokens : List Char → Option (List (Nat ⊕ Char))
  | [] => some []
  | c :: rest =>
    if c = pc then
      match rest with
      | h1 :: h2 :: r =>
        match hexVal h1, hexVal h2 with
        | some a, some b0 => (pctTokens r).map (Sum.inl (16 * a + b0) :: ·)
        | _, _ => none
      | _ => none
    else (pctTokens rest).map (Sum.inr c :: ·)

/-- Second phase of `decodeURIComponent`, as a state machine over the
tokens: `need` is the number of continuation bytes still expected for the
current UTF-8 sequence and `acc` the partial code point.  A lead byte
opens a sequence, continuation bytes (which must themselves come from
percent-escapes) extend it, and the decoded character is emitted when the
sequence completes.  Malformed sequences (JS: a thrown `URIError`) yield
`none`. -/
def utf8DecodeGo (need acc : Nat) : List (Nat ⊕ Char) → Option (List Char)
  | [] => if need = 0 then some [] else none
  | Sum.inr c :: ts => if need = 0 then (utf8DecodeGo 0 0 ts).map (c :: ·) else none
  | Sum.inl b :: ts =>
    if need = 0 then
      if b < 128 then (utf8DecodeGo 0 0 ts).map (Char.ofNat b :: ·)
      else if b < 192 then none
      else if b < 224 then utf8DecodeGo 1 (b - 192) ts
      else if b < 240 then utf8DecodeGo 2 (b - 224) ts
      else if b < 248 then utf8DecodeGo 3 (b - 240) ts
      else none
    else
      if 128 ≤ b ∧ b < 192 then
        if need = 1 then (utf8DecodeGo 0 0 ts).map (Char.ofNat (acc * 64 + (b - 128)) :: ·)
        else utf8DecodeGo (need - 1) (acc * 64 + (b - 128)) ts
      else none

/-- UTF-8 decoding of the percent tokens. -/
def utf8DecodeTokens (ts : List (Nat ⊕ Char)) : Option (List Char) :=
  utf8DecodeGo 0 0 ts

/-- Model of the JavaScript builtin `decodeURIComponent`: percent-escapes
are decoded as UTF-8 byte sequences, other characters are kept; malformed
input (JS: a thrown `URIError`) yields `none`. -/
def decodeURIComponentJS (s : List Char) : Option (List Char) :=
  (pctTokens s).bind utf8DecodeTokens

/-- `encodeQueryParams` (src/playwrightx/utils.ts:815): split at the first
`?`; if there is none return the string unchanged, otherwise re-assemble
with everything after the first `?` passed through `encodeURIComponent`. -/
def encodeQueryParams (url : List Char) : List Char :=
  if qm ∈ url then
    url.takeWhile (· ≠ qm) ++ qm :: encodeURIComponentJS ((url.dropWhile (· ≠ qm)).tail)
  else url

/-- The token sequence an encoded character contributes. -/
def tokensOfChar (c : Char) : List (Nat ⊕ Char) :=
  if unreservedURI c then [Sum.inr c] else (utf8Bytes c).map Sum.inl

/-- The token sequence an encoded string contributes. -/
def tokensOfStr (s : List Char) : List (Nat ⊕ Char) :=
  s.flatMap tokensOfChar

/-! ## `groupTestCasesByPath` (src/playwrightx/utils.ts:1355) -/

/-- The split performed on each test case by `groupTestCasesByPath`: the
path is everything before the first `?` (the whole string when there is
none) and the name everything after it (empty when there is none). -/
def splitSelector (testcase : List Char) : List Char × List Char :=
  (testcase.takeWhile (· ≠ qm), (testcase.dropWhile (· ≠ qm)).tail)

/-- Insertion into the `groupedTestCases` record: append the name to the
existing group of the path, or create a new group at the end. -/
def addToGroup (gs : List (List Char × List (List Char))) (p n : List Char) :
    List (List Char × List (List Char)) :=
  match gs with
  | [] => [(p, [n])]
  | (k, ns) :: rest =>
    if k = p then (k, ns ++ [n]) :: rest else (k, ns) :: addToGroup rest p n

/-- `groupTestCasesByPath`: group the selectors by their path part; the
JS `Record` is modelled as an insertion-ordered association list. -/
def groupTestCasesByPath (testcases : List (List Char)) :
    List (List Char × List (List Char)) :=
  testcases.foldl (fun gs tc => addToGroup gs (splitSelector tc).1 (splitSelector tc).2) []

/-- The (path, name) pairs a grouping holds. -/
def groupPairs (gs : List (List Char × List (List Char))) :
    List (List Char × List Char) :=
  gs.flatMap (fun g => g.2.map (fun n => (g.1, n)))

/-- The keys of a grouping. -/
def groupKeys (gs : List (List Char × List (List Char))) : List (List Char) :=
  gs.map (·.1)

/-! ## `handlePath` (utils.ts:1091) and `getTestcasePrefix` (utils.ts:1504) -/

/-- `handlePath`: `filePath.replace(projPath + "/", "")` — JS
`String.prototype.replace` with a string pattern removes the first
occurrence of the pattern anywhere in the string. -/
def handlePath (projPath filePath : List Char) : List Char :=
  replaceFirst filePath (projPath ++ [sl])

/-- `getTestcasePrefix`: the `TESTSOLAR_TTP_TESTCASE_PREFIX` environment
value (`none` when unset, `process.env.X || ""` turns that into the empty
string), returned unchanged when empty, and otherwise normalized to end
in a single `/`. -/
def getTestcasePrefix (envVal : Option (List Char)) : List Char :=
  let testcasePrefix := envVal.getD []
  if testcasePrefix = [] then []
  else if testcasePrefix.getLast? = some sl then testcasePrefix
  else testcasePrefix ++ [sl]

/-! ## `filterTestcases` (utils.ts:938) -/

/-- Whether one selector matches a test case (body of the inner loop of
`filterTestcases`): a directory selector (classified `-1`) matches by
containment of `selector + "/"`, any other selector by containment of
`encodeQueryParams(selector)`.  `fsClass` models `isFileOrDirectory`, a
fixed file-system classification (1 file, -1 directory, 0 other). -/
def selectorMatches (fsClass : List Char → Int) (testCase selector : List Char) : Bool :=
  if fsClass selector = -1 then hasSubstr testCase (selector ++ [sl])
  else hasSubstr testCase (encodeQueryParams selector)

/-- `filterTestcases`: with no selectors the parsed list is returned
unchanged; otherwise a test case is kept exactly when it matches some
selector (`exclude = false`) or no selector (`exclude = true`). -/
def filterTestcases (fsClass : List Char → Int)
    (testSelectors parsedTestcases : List (List Char)) (exclude : Bool) :
    List (List Char) :=
  if testSelectors = [] then parsedTestcases
  else parsedTestcases.filter fun testCase =>
    let matched := testSelectors.any (selectorMatches fsClass testCase)
    if exclude then !matched else matched

/-! ## `parseTestcase` (utils.ts:979) -/

/-- A Playwright spec (only the fields `parseTestcase` reads). -/
structure SpecT where
  title : List Char

/-- A Playwright suite: a title, a file, optional nested suites (JS
truthiness: an absent `suites` field is falsy, any array — even empty —
is truthy) and specs. -/
inductive SuiteT : Type where
  | mk (title file : List Char) (subs : Option (List SuiteT)) (specs : List SpecT)

def SuiteT.title : SuiteT → List Char
  | .mk t _ _ _ => t

def SuiteT.file : SuiteT → List Char
  | .mk _ f _ _ => f

def SuiteT.subs : SuiteT → Option (List SuiteT)
  | .mk _ _ s _ => s

def SuiteT.specs : SuiteT → List SpecT
  | .mk _ _ _ s => s

/-- `rootDir ? rootDir : data.config.rootDir` with JS truthiness (both
`null` and the empty string are falsy). -/
def resolveRoot (configRoot : List Char) (rootDir : Option (List Char)) : List Char :=
  match rootDir with
  | some r => if r = [] then configRoot else r
  | none => configRoot

/-- `(rootPath + "/" + suite.file).replace(projPath + "/", "")`. -/
def casePathOf (projPath rootPath file : List Char) : List Char :=
  replaceFirst (rootPath ++ sl :: file) (projPath ++ [sl])

/-- The traversal of `parseTestcase` over the suites array, before the
final deduplication: leaf suites contribute one selector per spec
(`encodeQueryParams(casePath + "?" + (desc ? desc + " " + title : title))`
with `desc` empty when the suite title equals the suite file), suites
with a (truthy) `suites` field are recursed into with the resolved root
passed down, and their own specs are ignored. -/
def parseTestcaseSuites (projPath configRoot : List Char) (rootDir : Option (List Char)) :
    List SuiteT → List (List Char)
  | [] => []
  | SuiteT.mk title file subs specs :: rest =>
    let rootPath := resolveRoot configRoot rootDir
    let casePath := casePathOf projPath rootPath file
    (match subs with
     | some subSuites => parseTestcaseSuites projPath configRoot (some rootPath) subSuites
     | none =>
       let desc := if title = file then [] else title
       specs.map fun spec =>
         encodeQueryParams (casePath ++ qm ::
           (if desc ≠ [] then desc ++ sp :: spec.title else spec.title)))
      ++ parseTestcaseSuites projPath configRoot rootDir rest

/-- `parseTestcase`: the traversal followed by
`Array.from(new Set(...))` (first-occurrence deduplication).  The JS
signature `(projPath, data, rootDir = null)` is flattened: `configRoot`
is `data.config.rootDir` and `suites` is `data.suites`. -/
def parseTestcase (projPath configRoot : List Char) (suites : List SuiteT)
    (rootDir : Option (List Char)) : List (List Char) :=
  jsSetDedup (parseTestcaseSuites projPath configRoot rootDir suites)

/-- The (path, raw title) pairs of the `parseTestcase` traversal, before
query encoding: the raw title is the suite title joined with the spec
title by a space when the suite title differs from the suite file, and
the spec title alone otherwise. -/
def rawSelectors (projPath configRoot : List Char) (rootDir : Option (List Char)) :
    List SuiteT → List (List Char × List Char)
  | [] => []
  | SuiteT.mk title file subs specs :: rest =>
    let rootPath := resolveRoot configRoot rootDir
    let casePath := casePathOf projPath rootPath file
    (match subs with
     | some subSuites => rawSelectors projPath configRoot (some rootPath) subSuites
     | none =>
       let desc := if title = file then [] else title
       specs.map fun spec =>
         (casePath, if desc ≠ [] then desc ++ sp :: spec.title else spec.title))
      ++ rawSelectors projPath configRoot rootDir rest

/-- All suite files in the tree avoid the question mark. -/
def filesNoQm : List SuiteT → Bool
  | [] => true
  | SuiteT.mk _ file subs _ :: rest =>
    decide (qm ∉ file) &&
      (match subs with
       | some subSuites => filesNoQm subSuites
       | none => true) &&
      filesNoQm rest

/-! ## Report data model (utils.ts interfaces) -/

/-- `Location` (utils.ts:756). -/
structure LocationT where
  file : List Char
  line : Nat
  column : Nat
deriving DecidableEq

/-- `Error` (utils.ts:762). -/
structure ErrorT where
  message : List Char
  stack : List Char
  location : LocationT
  snippet : List Char
deriving DecidableEq

/-- `Stats` (utils.ts:769). -/
structure StatsT where
  startTime : List Char
  duration : Rat
deriving DecidableEq

/-- `JsonData` (utils.ts:774). -/
structure JsonDataT where
  stats : StatsT
  suites : List SuiteT
  errors : List ErrorT

/-- An SDK `Attachment` (only carried through, never inspected). -/
structure AttachmentT where
  name : List Char
  path : List Char
deriving DecidableEq

/-- `SpecResult` (utils.ts:780). -/
structure SpecResultT where
  projectID : Option (List Char)
  result : List Char
  duration : Rat
  startTime : Rat
  endTime : Rat
  message : List Char
  content : List Char
  owner : Option (List Char)
  description : Option (List Char)
  attachments : List AttachmentT
deriving DecidableEq

/-- `PlaywrightReport.stats` (utils.ts:805). -/
structure PRStatsT where
  startTime : List Char
  duration : Rat
  expected : Int
  skipped : Int
  unexpected : Int
  flaky : Int
deriving DecidableEq

/-- `PlaywrightReport` (utils.ts:794). -/
structure PlaywrightReportT where
  errors : List ErrorT
  stats : PRStatsT
deriving DecidableEq

/-- An SDK `LoadError` (a name and a message). -/
structure LoadErrorT where
  name : List Char
  message : List Char
deriving DecidableEq

/-- `file:line:column` as interpolated by the source. -/
def locationString (l : LocationT) : List Char :=
  l.file ++ ":".data ++ (Nat.repr l.line).data ++ ":".data ++ (Nat.repr l.column).data

/-- `parseTimeStamp` (utils.ts:1097): start and end epoch seconds and the
duration in seconds.  `parseDateMs` models the external date library
composition `zonedTimeToUtc(parseISO(s), "UTC").getTime()` (epoch
milliseconds of the parsed timestamp); values are rationals because JS
divides by 1000. -/
def parseTimeStamp (parseDateMs : List Char → Rat) (startTime : List Char)
    (duration : Rat) : Rat × Rat × Rat :=
  (parseDateMs startTime / 1000, (parseDateMs startTime + duration) / 1000,
    duration / 1000)

/-- JS `record[key] = value` on an insertion-ordered record: overwrite in
place or append a new key. -/
def setKey {α : Type} (m : List (List Char × α)) (k : List Char) (v : α) :
    List (List Char × α) :=
  match m with
  | [] => [(k, v)]
  | (k2, v2) :: rest => if k2 = k then (k2, v) :: rest else (k2, v2) :: setKey rest k v

/-- JS `record[key]` lookup. -/
def getKey {α : Type} (m : List (List Char × α)) (k : List Char) : Option α :=
  match m with
  | [] => none
  | (k2, v) :: rest => if k2 = k then some v else getKey rest k

/-! ## `parseErrorCases` (utils.ts:855) -/

/-- The record built for one report error. -/
def errorResultOf (parseDateMs : List Char → Rat) (stats : StatsT)
    (error : ErrorT) : SpecResultT :=
  let ts := parseTimeStamp parseDateMs stats.startTime stats.duration
  { projectID := none, result := "failed".data, duration := ts.2.2,
    startTime := ts.1, endTime := ts.2.1, message := error.message,
    content := error.stack ++ "\nLocation: ".data ++ locationString error.location
      ++ "\nSnippet:\n".data ++ error.snippet,
    owner := none, description := none, attachments := [] }

/-- The fixed message used when both suites and errors are empty. -/
def emptyLogMessage : List Char :=
  "日志为空，请检查用例本地是否跑通，或者联系腾讯云助手".data

/-- The record built when the report holds no suites and no errors. -/
def emptyResultOf (parseDateMs : List Char → Rat) (stats : StatsT) : SpecResultT :=
  let ts := parseTimeStamp parseDateMs stats.startTime stats.duration
  { projectID := none, result := "failed".data, duration := ts.2.2,
    startTime := ts.1, endTime := ts.2.1, message := emptyLogMessage,
    content := emptyLogMessage, owner := none, description := none, attachments := [] }

/-- `parseErrorCases`: when the report has no suites, every requested case
is assigned a single failed record (one per report error, later errors
overwriting earlier ones; a fixed empty-log record when there are no
errors); when the report has suites the returned record is empty. -/
def parseErrorCases (parseDateMs : List Char → Rat) (jsonData : JsonDataT)
    (cases : List (List Char)) : List (List Char × List SpecResultT) :=
  if jsonData.suites.length = 0 then
    if jsonData.errors.length > 0 then
      jsonData.errors.foldl
        (fun m error =>
          cases.foldl
            (fun m2 testCase =>
              setKey m2 testCase [errorResultOf parseDateMs jsonData.stats error]) m)
        []
    else
      cases.foldl
        (fun m testCase => setKey m testCase [emptyResultOf parseDateMs jsonData.stats]) []
  else []

/-! ## `parsePlaywrightReport` (utils.ts:1514) -/

/-- The per-error `LoadError` built by `parsePlaywrightReport`: the first
line of the message, extended by the trimmed second line as a suggested
solution when the message contains `Instead change`.  `none` models the
`TypeError` thrown by `error.message.split('\n')[1].trim()` when such a
message has no second line. -/
def mkLoadError (error : ErrorT) : Option LoadErrorT :=
  let lines := error.message.splitOn nl
  let errorMessage := lines.headD []
  if hasSubstr error.message ("Instead change".data) then
    match lines[1]? with
    | some l1 =>
      let solution := jsTrim l1
      some { name := locationString error.location,
             message := if solution = [] then errorMessage
               else errorMessage ++ "\n解决方案: ".data ++ solution }
    | none => none
  else some { name := locationString error.location, message := errorMessage }

/-- The `forEach` over the report errors; an exception in any iteration
propagates. -/
def mkLoadErrors : List ErrorT → Option (List LoadErrorT)
  | [] => some []
  | e :: rest => (mkLoadError e).bind fun le => (mkLoadErrors rest).map (le :: ·)

def parseErrorName : List Char := "playwright-json-parse-error".data

def loadErrorName : List Char := "playwright-test-load-error".data

/-- The parse-failure message (the exception detail appended in JS is
elided). -/
def parseFailMessage : List Char := "解析JSON数据失败: ".data

def loadErrorMessage : List Char :=
  "由于导入错误，没有测试用例被扫描。请先修复以上错误。".data

/-- `parsePlaywrightReport`: the argument is the outcome of
`JSON.parse(jsonData)` (`none` when parsing throws).  Any exception inside
the `try` block — including the second-line access above — lands in the
`catch` and produces the single tagged parse error, which `Option.getD`
models. -/
def parsePlaywrightReport (report : Option PlaywrightReportT) : List LoadErrorT :=
  (report.bind fun r =>
    (mkLoadErrors r.errors).map fun loadErrors =>
      if r.stats.expected = 0 ∧ r.errors.length > 0 then
        loadErrors ++ [{ name := loadErrorName, message := loadErrorMessage }]
      else loadErrors).getD
    [{ name := parseErrorName, message := parseFailMessage }]

/-! ## `createTestResults` (utils.ts:1389) -/

/-- SDK `ResultType` (the values this file uses). -/
inductive ResultTypeT : Type where
  | SUCCEED
  | FAILED
deriving DecidableEq

/-- SDK `LogLevel` (the values this file uses). -/
inductive LogLevelT : Type where
  | INFO
  | ERROR
deriving DecidableEq

/-- An SDK `TestCase`: encoded name plus owner/description attributes. -/
structure TestCaseT where
  name : List Char
  owner : List Char
  description : List Char
deriving DecidableEq

/-- An SDK `TestCaseLog`. -/
structure TestCaseLogT where
  time : List Char
  level : LogLevelT
  content : List Char
  attachments : List AttachmentT
deriving DecidableEq

/-- An SDK `TestCaseStep`. -/
structure TestCaseStepT where
  startTime : List Char
  endTime : List Char
  title : List Char
  resultType : ResultTypeT
  logs : List TestCaseLogT
deriving DecidableEq

/-- An SDK `TestResult`. -/
structure TestResultT where
  test : TestCaseT
  startTime : List Char
  endTime : List Char
  resultType : ResultTypeT
  message : List Char
  steps : List TestCaseStepT
deriving DecidableEq

/-- The environment variables `createTestResults` reads. -/
structure EnvCfg where
  testcasePrefixVar : Option (List Char)
  fileModeVar : Option (List Char)

/-- The `TestResult` built for one produced result (loop body of
`createTestResults`, utils.ts:1418-1453).  `toIso` models the JS date
formatting `x => new Date(x * 1000).toISOString()`; `result.message || ""`
and `result.content || ""` are identities on total strings. -/
def mkTestResult (toIso : Rat → List Char) (casePrefix testCase : List Char)
    (r : SpecResultT) : TestResultT :=
  let testPath := encodeQueryParams (casePrefix ++ testCase)
  let startTime := toIso r.startTime
  let endTime := toIso r.endTime
  let resultType :=
    if r.result = "passed".data then ResultTypeT.SUCCEED else ResultTypeT.FAILED
  { test := { name := testPath, owner := r.owner.getD [],
              description := r.description.getD [] },
    startTime := startTime, endTime := endTime, resultType := resultType,
    message := r.message,
    steps := [{ startTime := startTime, endTime := endTime,
                title := "Step title".data, resultType := resultType,
                logs := [{ time := startTime,
                           level := if r.result = "passed".data then LogLevelT.INFO
                             else LogLevelT.ERROR,
                           content := r.content, attachments := r.attachments }] }] }

/-- `testIdentifiers.includes(testCase)`, extended in file mode to the
file part (before the first `?`) of the test case. -/
def isInIdentifiers (fileMode : Bool) (testIdentifiers : List (List Char))
    (testCase : List Char) : Bool :=
  decide (testCase ∈ testIdentifiers) ||
    (fileMode && decide (testCase.takeWhile (· ≠ qm) ∈ testIdentifiers))

/-- The results pushed by the first loop of `createTestResults`: one per
produced result whose test case is among the identifiers. -/
def loop1Results (toIso : Rat → List Char) (casePrefix : List Char) (fileMode : Bool)
    (output : List (List Char × List SpecResultT))
    (testIdentifiers : List (List Char)) : List TestResultT :=
  output.flatMap fun entry =>
    if isInIdentifiers fileMode testIdentifiers entry.1
    then entry.2.map (mkTestResult toIso casePrefix entry.1)
    else []

/-- `referenceFailedTest`: the first FAILED result built for a test case
outside the identifier list. -/
def referenceFailed (toIso : Rat → List Char) (casePrefix : List Char) (fileMode : Bool)
    (output : List (List Char × List SpecResultT))
    (testIdentifiers : List (List Char)) : Option TestResultT :=
  (output.flatMap fun entry =>
    if isInIdentifiers fileMode testIdentifiers entry.1 then []
    else (entry.2.map (mkTestResult toIso casePrefix entry.1)).filter
      (fun t => decide (t.resultType = ResultTypeT.FAILED))).head?

/-- The match performed by the reconciliation loop:
`decodeURIComponent(result.Test.Name.replace(casePrefix, '')) === identifier`;
`none` when decoding throws. -/
def matchName (casePrefix identifier : List Char) (t : TestResultT) : Option Bool :=
  (decodeURIComponentJS (replaceFirst t.test.name casePrefix)).map
    (fun s => decide (s = identifier))

/-- JS `Array.prototype.some` with a callback that can throw: evaluation
stops at the first `true`, an exception propagates. -/
def someM (f : TestResultT → Option Bool) : List TestResultT → Option Bool
  | [] => some false
  | t :: ts =>
    match f t with
    | none => none
    | some true => some true
    | some false => someM f ts

def noResultsMessage : List Char := "No test results found for this identifier: ".data

/-- The fallback FAILED result created for an identifier with no matching
result (utils.ts:1477-1496), copying times, attributes and steps from the
reference failed test. -/
def mkFallback (casePrefix identifier : List Char) (ref : TestResultT) : TestResultT :=
  { test := { name := encodeQueryParams (casePrefix ++ identifier),
              owner := ref.test.owner, description := ref.test.description },
    startTime := ref.startTime, endTime := ref.endTime,
    resultType := ResultTypeT.FAILED,
    message := noResultsMessage ++ identifier,
    steps := ref.steps }

/-- The second loop of `createTestResults` (utils.ts:1468-1498): for each
identifier without a matching accumulated result, append a fallback when a
reference failed test exists. -/
def reconcile (casePrefix : List Char) (oref : Option TestResultT) :
    List (List Char) → List TestResultT → Option (List TestResultT)
  | [], acc => some acc
  | identifier :: rest, acc =>
    (someM (matchName casePrefix identifier) acc).bind fun has =>
      if has then reconcile casePrefix oref rest acc
      else reconcile casePrefix oref rest
        (acc ++ oref.elim [] (fun ref => [mkFallback casePrefix identifier ref]))

/-- `createTestResults` (utils.ts:1389): build results for produced
entries among the identifiers, then reconcile the identifier list against
them; `none` models a thrown `URIError` from `decodeURIComponent`. -/
def createTestResults (toIso : Rat → List Char) (env : EnvCfg)
    (output : List (List Char × List SpecResultT))
    (testIdentifiers : List (List Char)) : Option (List TestResultT) :=
  let casePrefix := getTestcasePrefix env.testcasePrefixVar
  let fileMode := decide (env.fileModeVar = some ("1".data))
  reconcile casePrefix (referenceFailed toIso casePrefix fileMode output testIdentifiers)
    testIdentifiers (loop1Results toIso casePrefix fileMode output testIdentifiers)

/-- A suite tree whose file name contains a question mark. -/
def c2badSuites : List SuiteT :=
  [SuiteT.mk ("a?b").data ("a?b").data none [⟨("t").data⟩]]

/-- A well-formed suite tree for the witness. -/
def c2suites : List SuiteT :=
  [SuiteT.mk ("suite one").data ("a.spec.ts").data none [⟨("does x").data⟩]]

def c5pd : List Char → Rat := fun _ => 0

def c5err : ErrorT :=
  { message := ("boom").data, stack := ("stack").data,
    location := { file := ("f.ts").data, line := 3, column := 7 },
    snippet := ("snip").data }

def c5data : JsonDataT :=
  { stats := { startTime := ("2024-01-01T00:00:00Z").data, duration := 2000 },
    suites := [], errors := [c5err] }

def c6stats : PRStatsT :=
  { startTime := [], duration := 0, expected := 0, skipped := 0,
    unexpected := 0, flaky := 0 }

/-- An error whose message contains `Instead change` but has no second
line. -/
def c6badErr : ErrorT :=
  { message := ("x Instead change y").data, stack := [],
    location := { file := ("f.ts").data, line := 1, column := 2 }, snippet := [] }

/-- A report whose single error message contains `Instead change` but has
no second line. -/
def c6badReport : PlaywrightReportT := { errors := [c6badErr], stats := c6stats }

/-- An ordinary report error. -/
def c6goodErr : ErrorT :=
  { message := ("boom happened").data, stack := [],
    location := { file := ("g.ts").data, line := 1, column := 2 }, snippet := [] }

/-- A well-formed error report for the witness. -/
def c6goodReport : PlaywrightReportT := { errors := [c6goodErr], stats := c6stats }

/-- Everything classified as "other" (neither file nor directory). -/
def c9fsClass : List Char → Int := fun _ => 0

/-- A classification marking exactly `dir` as a directory. -/
def c9fsClass2 : List Char → Int := fun s => if s = ("dir").data then -1 else 0

/-- A produced result with status `skipped`. -/
def c10skipped : SpecResultT :=
  { projectID := none, result := ("skipped").data, duration := 0, startTime := 0,
    endTime := 0, message := [], content := [], owner := none, description := none,
    attachments := [] }

def c4toIso : Rat → List Char := fun _ => []

def c4env : EnvCfg := { testcasePrefixVar := none, fileModeVar := none }

/-- A produced failed result for a test case outside the identifier list. -/
def c4failR : SpecResultT :=
  { projectID := none, result := ("failed").data, duration := 0, startTime := 0,
    endTime := 0, message := [], content := [], owner := none, description := none,
    attachments := [] }

def c4out : List (List Char × List SpecResultT) := [(("x").data, [c4failR])]

def c4ref : TestResultT := mkTestResult c4toIso [] (("x").data) c4failR

def c4aliasIds : List (List Char) := [("a%3F").data, ("a?").data]

def c4aliasRes : List TestResultT := [mkFallback [] (("a%3F").data) c4ref]

def c4ids : List (List Char) := [("y").data]

def c4res : List TestResultT := [mkFallback [] (("y").data) c4ref]

/-! ## Round-trip lemmas for the percent-encoding model -/

theorem hexVal_hexDigitChar {d : Nat} (hd : d < 16) : hexVal (hexDigitChar d) = some d := by
  interval_cases d <;> decide

theorem char_toNat_lt (c : Char) : c.toNat < 1114112 := by
  rcases c.valid with h | h
  · simp only [Char.toNat]; omega
  · simp only [Char.toNat]; omega

theorem utf8Bytes_lt (c : Char) : ∀ b ∈ utf8Bytes c, b < 256 := by
  have hv := char_toNat_lt c
  rw [utf8Bytes]
  split_ifs with h1 h2 h3 <;> intro b hb <;> simp only [List.mem_cons, List.mem_singleton,
    List.not_mem_nil, or_false] at hb
  · omega
  · rcases hb with rfl | rfl <;> omega
  · rcases hb with rfl | rfl | rfl <;> omega
  · rcases hb with rfl | rfl | rfl | rfl <;> omega

theorem pctTokens_pctByte {b : Nat} (hb : b < 256) (t : List Char) :
    pctTokens (pctByte b ++ t) = (pctTokens t).map (Sum.inl b :: ·) := by
  have e1 : hexVal (hexDigitChar (b / 16)) = some (b / 16) := hexVal_hexDigitChar (by omega)
  have e2 : hexVal (hexDigitChar (b % 16)) = some (b % 16) := hexVal_hexDigitChar (by omega)
  show pctTokens (pc :: hexDigitChar (b / 16) :: hexDigitChar (b % 16) :: t) = _
  rw [pctTokens, if_pos rfl, e1, e2]
  show (pctTokens t).map (Sum.inl (16 * (b / 16) + b % 16) :: ·) = _
  rw [Nat.div_add_mod]

theorem pctTokens_raw {c : Char} (hc : c ≠ pc) (t : List Char) :
    pctTokens (c :: t) = (pctTokens t).map (Sum.inr c :: ·) := by
  match t with
  | [] => simp [pctTokens, hc]
  | [x] => simp [pctTokens, hc]
  | x :: y :: r => simp [pctTokens, hc]

theorem pctTokens_bytes {bs : List Nat} (hbs : ∀ b ∈ bs, b < 256) (t : List Char) :
    pctTokens (bs.flatMap pctByte ++ t) = (pctTokens t).map (bs.map Sum.inl ++ ·) := by
  induction bs with
  | nil =>
    simp only [List.flatMap_nil, List.nil_append, List.map_nil]
    cases h : pctTokens t <;> simp [h]
  | cons b bs ih =>
    simp only [List.flatMap_cons, List.append_assoc]
    rw [pctTokens_pctByte (hbs b (by simp)), ih (fun x hx => hbs x (by simp [hx]))]
    cases h : pctTokens t <;> simp [h]

theorem pctTokens_encodeChar (c : Char) (t : List Char) :
    pctTokens (percentEncodeChar c ++ t) = (pctTokens t).map (tokensOfChar c ++ ·) := by
  by_cases h : unreservedURI c
  · have hc : c ≠ pc := by
      intro e; subst e; exact absurd h (by decide)
    simp only [percentEncodeChar, if_pos h, tokensOfChar, List.singleton_append]
    rw [pctTokens_raw hc]
  · simp only [percentEncodeChar, if_neg h, tokensOfChar]
    exact pctTokens_bytes (utf8Bytes_lt c) t

theorem utf8DecodeGo_bytes (c : Char) (ts : List (Nat ⊕ Char)) (a : Nat) :
    utf8DecodeGo 0 a ((utf8Bytes c).map Sum.inl ++ ts) =
      (utf8DecodeGo 0 0 ts).map (c :: ·) := by
  have hv := char_toNat_lt c
  rw [utf8Bytes]
  by_cases h1 : c.toNat < 128
  · rw [if_pos h1]
    show utf8DecodeGo 0 a (Sum.inl c.toNat :: ts) = _
    rw [utf8DecodeGo, if_pos rfl, if_pos h1, Char.ofNat_toNat]
  · rw [if_neg h1]
    by_cases h2 : c.toNat < 2048
    · rw [if_pos h2]
      show utf8DecodeGo 0 a
          (Sum.inl (192 + c.toNat / 64) :: Sum.inl (128 + c.toNat % 64) :: ts) = _
      rw [utf8DecodeGo, if_pos rfl, if_neg (by omega), if_neg (by omega), if_pos (by omega)]
      rw [utf8DecodeGo, if_neg (by omega), if_pos (by omega), if_pos rfl]
      rw [show (192 + c.toNat / 64 - 192) * 64 + (128 + c.toNat % 64 - 128) = c.toNat by omega]
      rw [Char.ofNat_toNat]
    · rw [if_neg h2]
      by_cases h3 : c.toNat < 65536
      · rw [if_pos h3]
        show utf8DecodeGo 0 a
            (Sum.inl (224 + c.toNat / 4096) :: Sum.inl (128 + c.toNat / 64 % 64) ::
              Sum.inl (128 + c.toNat % 64) :: ts) = _
        rw [utf8DecodeGo, if_pos rfl, if_neg (by omega), if_neg (by omega),
          if_neg (by omega), if_pos (by omega)]
        rw [utf8DecodeGo, if_neg (by omega), if_pos (by omega), if_neg (by omega)]
        rw [utf8DecodeGo, if_neg (by omega), if_pos (by omega), if_pos (by omega)]
        rw [show ((224 + c.toNat / 4096 - 224) * 64 + (128 + c.toNat / 64 % 64 - 128)) * 64 +
            (128 + c.toNat % 64 - 128) = c.toNat by omega]
        rw [Char.ofNat_toNat]
      · rw [if_neg h3]
        show utf8DecodeGo 0 a
            (Sum.inl (240 + c.toNat / 262144) :: Sum.inl (128 + c.toNat / 4096 % 64) ::
              Sum.inl (128 + c.toNat / 64 % 64) :: Sum.inl (128 + c.toNat % 64) :: ts) = _
        rw [utf8DecodeGo, if_pos rfl, if_neg (by omega), if_neg (by omega),
          if_neg (by omega), if_neg (by omega), if_pos (by omega)]
        rw [utf8DecodeGo, if_neg (by omega), if_pos (by omega), if_neg (by omega)]
        rw [utf8DecodeGo, if_neg (by omega), if_pos (by omega), if_neg (by omega)]
        rw [utf8DecodeGo, if_neg (by omega), if_pos (by omega), if_pos (by omega)]
        rw [show (((240 + c.toNat / 262144 - 240) * 64 + (128 + c.toNat / 4096 % 64 - 128)) * 64 +
            (128 + c.toNat / 64 % 64 - 128)) * 64 + (128 + c.toNat % 64 - 128) = c.toNat by omega]
        rw [Char.ofNat_toNat]

theorem utf8DecodeGo_tokensOfChar (c : Char) (ts : List (Nat ⊕ Char)) :
    utf8DecodeGo 0 0 (tokensOfChar c ++ ts) = (utf8DecodeGo 0 0 ts).map (c :: ·) := by
  by_cases h : unreservedURI c
  · simp only [tokensOfChar, if_pos h, List.singleton_append]
    rw [utf8DecodeGo, if_pos rfl]
  · simp only [tokensOfChar, if_neg h]
    exact utf8DecodeGo_bytes c ts 0

theorem pctTokens_encode (s t : List Char) :
    pctTokens (encodeURIComponentJS s ++ t) = (pctTokens t).map (tokensOfStr s ++ ·) := by
  induction s with
  | nil =>
    simp only [encodeURIComponentJS, List.flatMap_nil, List.nil_append]
    cases h : pctTokens t <;> simp [h, tokensOfStr]
  | cons c s ih =>
    have e : encodeURIComponentJS (c :: s) ++ t
        = percentEncodeChar c ++ (encodeURIComponentJS s ++ t) := by
      simp [encodeURIComponentJS, List.flatMap_cons, List.append_assoc]
    rw [e, pctTokens_encodeChar, ih]
    cases h : pctTokens t <;>
      simp [h, tokensOfStr, List.flatMap_cons, List.append_assoc]

theorem utf8DecodeGo_tokensOfStr (s : List Char) (ts : List (Nat ⊕ Char)) :
    utf8DecodeGo 0 0 (tokensOfStr s ++ ts) = (utf8DecodeGo 0 0 ts).map (s ++ ·) := by
  induction s with
  | nil =>
    simp only [tokensOfStr, List.flatMap_nil, List.nil_append]
    cases h : utf8DecodeGo 0 0 ts <;> simp [h]
  | cons c s ih =>
    have e : tokensOfStr (c :: s) ++ ts = tokensOfChar c ++ (tokensOfStr s ++ ts) := by
      simp [tokensOfStr, List.flatMap_cons, List.append_assoc]
    rw [e, utf8DecodeGo_tokensOfChar]
    have e2 : tokensOfStr s ++ ts = tokensOfStr s ++ ts := rfl
    rw [ih]
    cases h : utf8DecodeGo 0 0 ts <;> simp [h]

/-- `decodeURIComponent` inverts `encodeURIComponent`. -/
theorem decode_encodeURIComponent (s : List Char) :
    decodeURIComponentJS (encodeURIComponentJS s) = some s := by
  have h := pctTokens_encode s []
  rw [List.append_nil] at h
  have h2 := utf8DecodeGo_tokensOfStr s []
  rw [List.append_nil] at h2
  rw [decodeURIComponentJS, h]
  have e0 : pctTokens [] = some [] := rfl
  rw [e0]
  show utf8DecodeTokens (tokensOfStr s ++ []) = some s
  rw [List.append_nil, utf8DecodeTokens, h2]
  have e1 : utf8DecodeGo 0 0 ([] : List (Nat ⊕ Char)) = some [] := rfl
  rw [e1]
  simp

theorem hexDigitChar_ne_qm {d : Nat} (hd : d < 16) : hexDigitChar d ≠ qm := by
  interval_cases d <;> decide

/-- The output of `encodeURIComponent` never contains a question mark. -/
theorem qm_not_mem_encode (s : List Char) : qm ∉ encodeURIComponentJS s := by
  intro hmem
  rw [encodeURIComponentJS, List.mem_flatMap] at hmem
  obtain ⟨c, -, hc⟩ := hmem
  rw [percentEncodeChar] at hc
  split_ifs at hc with h
  · rw [List.mem_singleton] at hc
    subst hc
    exact absurd h (by decide)
  · rw [List.mem_flatMap] at hc
    obtain ⟨b, hb, hqb⟩ := hc
    have hb256 := utf8Bytes_lt c b hb
    simp only [pctByte, List.mem_cons, List.not_mem_nil, or_false] at hqb
    rcases hqb with h1 | h1 | h1
    · exact absurd h1 (by decide)
    · exact hexDigitChar_ne_qm (by omega) h1.symm
    · exact hexDigitChar_ne_qm (by omega) h1.symm

theorem groupPairs_addToGroup (gs : List (List Char × List (List Char)))
    (p n : List Char) :
    (groupPairs (addToGroup gs p n)).Perm ((p, n) :: groupPairs gs) := by
  induction gs with
  | nil =>
    simp only [addToGroup, groupPairs, List.flatMap_cons, List.flatMap_nil, List.map_cons,
      List.map_nil, List.append_nil]
    exact List.Perm.refl _
  | cons g gs ih =>
    obtain ⟨k, ns⟩ := g
    by_cases h : k = p
    · subst h
      rw [addToGroup, if_pos rfl]
      simp only [groupPairs, List.flatMap_cons, List.map_append, List.map_cons, List.map_nil,
        List.append_assoc, List.singleton_append]
      exact List.perm_middle
    · rw [addToGroup, if_neg h]
      simp only [groupPairs, List.flatMap_cons]
      simp only [groupPairs] at ih
      exact (List.Perm.append_left _ ih).trans List.perm_middle

theorem groupKeys_addToGroup (gs : List (List Char × List (List Char)))
    (p n : List Char) :
    groupKeys (addToGroup gs p n)
      = if p ∈ groupKeys gs then groupKeys gs else groupKeys gs ++ [p] := by
  induction gs with
  | nil => simp [addToGroup, groupKeys]
  | cons g gs ih =>
    obtain ⟨k, ns⟩ := g
    by_cases h : k = p
    · subst h
      simp [addToGroup, groupKeys]
    · have hne : ¬ p = k := fun e => h e.symm
      simp only [addToGroup, if_neg h, groupKeys, List.map_cons, List.mem_cons]
      simp only [groupKeys] at ih
      rw [ih]
      by_cases h2 : p ∈ gs.map (·.1)
      · rw [if_pos h2, if_pos (Or.inr h2)]
      · rw [if_neg h2, if_neg (by rintro (h3 | h3) <;> [exact hne h3; exact h2 h3])]
        simp

theorem mem_groupKeys_addToGroup (gs : List (List Char × List (List Char)))
    (p n k : List Char) :
    k ∈ groupKeys (addToGroup gs p n) ↔ k ∈ groupKeys gs ∨ k = p := by
  rw [groupKeys_addToGroup]
  by_cases h : p ∈ groupKeys gs
  · simp only [if_pos h]
    constructor
    · exact Or.inl
    · rintro (hk | rfl)
      · exact hk
      · exact h
  · simp [if_neg h]

theorem groupTestCasesByPath_foldl_perm (tcs : List (List Char)) :
    ∀ (gs0 : List (List Char × List (List Char))),
      (groupPairs (tcs.foldl
        (fun gs tc => addToGroup gs (splitSelector tc).1 (splitSelector tc).2) gs0)).Perm
        (groupPairs gs0 ++ tcs.map splitSelector) := by
  induction tcs with
  | nil =>
    intro gs0
    simp only [List.foldl_nil, List.map_nil, List.append_nil]
    exact List.Perm.refl _
  | cons tc tcs ih =>
    intro gs0
    simp only [List.foldl_cons, List.map_cons]
    have h1 := ih (addToGroup gs0 (splitSelector tc).1 (splitSelector tc).2)
    have h2 : (groupPairs (addToGroup gs0 (splitSelector tc).1 (splitSelector tc).2)).Perm
        (splitSelector tc :: groupPairs gs0) := groupPairs_addToGroup gs0 _ _
    exact h1.trans ((h2.append_right _).trans List.perm_middle.symm)

theorem groupTestCasesByPath_foldl_keys (tcs : List (List Char))
    (gs0 : List (List Char × List (List Char))) (k : List Char) :
    k ∈ groupKeys (tcs.foldl
        (fun gs tc => addToGroup gs (splitSelector tc).1 (splitSelector tc).2) gs0)
      ↔ k ∈ groupKeys gs0 ∨ ∃ tc ∈ tcs, (splitSelector tc).1 = k := by
  induction tcs generalizing gs0 with
  | nil => simp
  | cons tc tcs ih =>
    simp only [List.foldl_cons]
    rw [ih, mem_groupKeys_addToGroup]
    constructor
    · rintro ((hk | rfl) | ⟨tc2, htc2, hk⟩)
      · exact Or.inl hk
      · exact Or.inr ⟨tc, List.mem_cons_self tc tcs, rfl⟩
      · exact Or.inr ⟨tc2, List.mem_cons_of_mem tc htc2, hk⟩
    · rintro (hk | ⟨tc2, htc2, hk⟩)
      · exact Or.inl (Or.inl hk)
      · rcases List.mem_cons.mp htc2 with rfl | htc2
        · exact Or.inl (Or.inr hk.symm)
        · exact Or.inr ⟨tc2, htc2, hk⟩

theorem groupTestCasesByPath_foldl_nodup (tcs : List (List Char))
    (gs0 : List (List Char × List (List Char))) (h0 : (groupKeys gs0).Nodup) :
    (groupKeys (tcs.foldl
        (fun gs tc => addToGroup gs (splitSelector tc).1 (splitSelector tc).2) gs0)).Nodup := by
  induction tcs generalizing gs0 with
  | nil => exact h0
  | cons tc tcs ih =>
    simp only [List.foldl_cons]
    apply ih
    rw [groupKeys_addToGroup]
    by_cases h : (splitSelector tc).1 ∈ groupKeys gs0
    · simpa [h] using h0
    · rw [if_neg h]
      refine List.Nodup.append h0 (List.nodup_singleton _) ?_
      intro a ha hb
      rw [List.mem_singleton] at hb
      subst hb
      exact h ha

theorem groupPairs_length (gs : List (List Char × List (List Char))) :
    (groupPairs gs).length = (gs.map (fun g => g.2.length)).sum := by
  induction gs with
  | nil => rfl
  | cons g gs ih =>
    simp only [groupPairs, List.flatMap_cons, List.length_append, List.length_map,
      List.map_cons, List.sum_cons]
    simp only [groupPairs] at ih
    omega

/-! ## Splitting at the first question mark -/

theorem takeWhile_no_qm {tc : List Char} (h : qm ∉ tc) :
    tc.takeWhile (· ≠ qm) = tc := by
  induction tc with
  | nil => rfl
  | cons a tc ih =>
    have ha : a ≠ qm := fun e => h (by simp [e])
    have h2 : qm ∉ tc := fun e => h (List.mem_cons_of_mem _ e)
    rw [List.takeWhile_cons_of_pos (by simp [ha]), ih h2]

theorem dropWhile_no_qm {tc : List Char} (h : qm ∉ tc) :
    tc.dropWhile (· ≠ qm) = [] := by
  induction tc with
  | nil => rfl
  | cons a tc ih =>
    have ha : a ≠ qm := fun e => h (by simp [e])
    have h2 : qm ∉ tc := fun e => h (List.mem_cons_of_mem _ e)
    rw [List.dropWhile_cons_of_pos (by simp [ha]), ih h2]

theorem splitSelector_no_qm {tc : List Char} (h : qm ∉ tc) :
    splitSelector tc = (tc, []) := by
  rw [splitSelector, takeWhile_no_qm h, dropWhile_no_qm h]
  rfl

theorem takeWhile_append_qm {p : List Char} (hp : qm ∉ p) (t : List Char) :
    (p ++ qm :: t).takeWhile (· ≠ qm) = p
      ∧ (p ++ qm :: t).dropWhile (· ≠ qm) = qm :: t := by
  induction p with
  | nil =>
    constructor
    · rw [List.nil_append, List.takeWhile_cons_of_neg (by simp)]
    · rw [List.nil_append, List.dropWhile_cons_of_neg (by simp)]
  | cons a p ih =>
    have ha : a ≠ qm := fun e => hp (by simp [e])
    have h2 : qm ∉ p := fun e => hp (List.mem_cons_of_mem _ e)
    obtain ⟨ih1, ih2⟩ := ih h2
    constructor
    · rw [List.cons_append, List.takeWhile_cons_of_pos (by simp [ha]), ih1]
    · rw [List.cons_append, List.dropWhile_cons_of_pos (by simp [ha]), ih2]

theorem splitSelector_append {p : List Char} (hp : qm ∉ p) (t : List Char) :
    splitSelector (p ++ qm :: t) = (p, t) := by
  obtain ⟨h1, h2⟩ := takeWhile_append_qm hp t
  rw [splitSelector, h1, h2]
  rfl

theorem encodeQueryParams_append {p : List Char} (hp : qm ∉ p) (t : List Char) :
    encodeQueryParams (p ++ qm :: t) = p ++ qm :: encodeURIComponentJS t := by
  obtain ⟨h1, h2⟩ := takeWhile_append_qm hp t
  rw [encodeQueryParams, if_pos (by simp), h1, h2]
  rfl

theorem dropWhile_qm_mem {tc : List Char} (h : qm ∈ tc) :
    tc.dropWhile (· ≠ qm) = qm :: (tc.dropWhile (· ≠ qm)).tail := by
  induction tc with
  | nil => cases h
  | cons a tc ih =>
    by_cases ha : a = qm
    · subst ha
      rw [List.dropWhile_cons_of_neg (by simp)]
      rfl
    · have h2 : qm ∈ tc := by
        rcases List.mem_cons.mp h with e | e
        · exact absurd e.symm ha
        · exact e
      rw [List.dropWhile_cons_of_pos (by simp [ha])]
      exact ih h2

theorem qm_not_mem_takeWhile (tc : List Char) :
    qm ∉ tc.takeWhile (· ≠ qm) := by
  intro h
  have := List.mem_takeWhile_imp h
  simp at this

theorem splitSelector_recomposes {tc : List Char} (h : qm ∈ tc) :
    tc = (splitSelector tc).1 ++ qm :: (splitSelector tc).2 := by
  calc tc = tc.takeWhile (· ≠ qm) ++ tc.dropWhile (· ≠ qm) :=
        (List.takeWhile_append_dropWhile (p := (· ≠ qm)) (l := tc)).symm
    _ = tc.takeWhile (· ≠ qm) ++ qm :: (tc.dropWhile (· ≠ qm)).tail := by
        rw [← dropWhile_qm_mem h]
    _ = (splitSelector tc).1 ++ qm :: (splitSelector tc).2 := rfl

theorem isPrefixB_append_drop {pat s : List Char} (h : isPrefixB pat s = true) :
    pat ++ s.drop pat.length = s := by
  induction pat generalizing s with
  | nil => simp
  | cons a pat ih =>
    cases s with
    | nil => exact absurd h (by simp [isPrefixB])
    | cons b s =>
      rw [isPrefixB, Bool.and_eq_true] at h
      obtain ⟨h1, h2⟩ := h
      have : a = b := by simpa using h1
      subst this
      simpa using ih h2

theorem replaceFirst_of_prefixB {pat s : List Char} (h : isPrefixB pat s = true) :
    replaceFirst s pat = s.drop pat.length := by
  cases s with
  | nil =>
    cases pat with
    | nil => rfl
    | cons a pat => exact absurd h (by simp [isPrefixB])
  | cons c rest => rw [replaceFirst, if_pos h]

theorem replaceFirst_of_no_substr {pat s : List Char} (h : hasSubstr s pat = false) :
    replaceFirst s pat = s := by
  induction s with
  | nil => rfl
  | cons c rest ih =>
    rw [hasSubstr, Bool.or_eq_false_iff] at h
    rw [replaceFirst, if_neg (by rw [h.1]; exact Bool.false_ne_true), ih h.2]

theorem replaceFirst_of_substr {pat s : List Char} (h : hasSubstr s pat = true) :
    ∃ a b, s = a ++ pat ++ b ∧ replaceFirst s pat = a ++ b := by
  induction s with
  | nil =>
    cases pat with
    | nil => exact ⟨[], [], rfl, rfl⟩
    | cons x xs => exact absurd h (by simp [hasSubstr])
  | cons c rest ih =>
    by_cases hpre : isPrefixB pat (c :: rest) = true
    · refine ⟨[], (c :: rest).drop pat.length, ?_, ?_⟩
      · simpa using (isPrefixB_append_drop hpre).symm
      · rw [replaceFirst, if_pos hpre]
        simp
    · rw [hasSubstr, Bool.or_eq_true] at h
      rcases h with h | h
      · exact absurd h hpre
      · obtain ⟨a, b, e1, e2⟩ := ih h
        refine ⟨c :: a, b, by simp [e1], ?_⟩
        rw [replaceFirst, if_neg hpre, e2]
        rfl

theorem mem_replaceFirst {x : Char} {s pat : List Char} (h : x ∈ replaceFirst s pat) :
    x ∈ s := by
  induction s with
  | nil => exact absurd h (by simp [replaceFirst])
  | cons c rest ih =>
    rw [replaceFirst] at h
    split_ifs at h with hp
    · exact List.drop_subset _ _ h
    · rcases List.mem_cons.mp h with rfl | h2
      · exact List.mem_cons_self _ _
      · exact List.mem_cons_of_mem _ (ih h2)

theorem jsSetDedup_subset (xs : List (List Char)) : ∀ x ∈ jsSetDedup xs, x ∈ xs := by
  have key : ∀ (ys : List (List Char)) (acc : List (List Char)),
      ∀ x ∈ ys.foldl (fun a y => if y ∈ a then a else a ++ [y]) acc, x ∈ acc ∨ x ∈ ys := by
    intro ys
    induction ys with
    | nil => intro acc x hx; exact Or.inl hx
    | cons y ys ih =>
      intro acc x hx
      simp only [List.foldl_cons] at hx
      rcases ih _ x hx with hx2 | hx2
      · by_cases hy : y ∈ acc
        · rw [if_pos hy] at hx2
          exact Or.inl hx2
        · rw [if_neg hy] at hx2
          rcases List.mem_append.mp hx2 with h2 | h2
          · exact Or.inl h2
          · exact Or.inr (by simp at h2; simp [h2])
      · exact Or.inr (List.mem_cons_of_mem _ hx2)
  intro x hx
  rcases key xs [] x hx with h | h
  · exact absurd h (by simp)
  · exact h

theorem resolveRoot_idem (configRoot : List Char) (rootDir : Option (List Char)) :
    resolveRoot configRoot (some (resolveRoot configRoot rootDir)) =
      resolveRoot configRoot rootDir := by
  match rootDir with
  | none =>
    by_cases h : configRoot = [] <;> simp [resolveRoot, h]
  | some r =>
    by_cases hr : r = []
    · by_cases h : configRoot = [] <;> simp [resolveRoot, hr, h]
    · simp [resolveRoot, hr]

theorem parseTestcaseSuites_eq_raw (projPath configRoot : List Char)
    (rootDir : Option (List Char)) (suites : List SuiteT) :
    parseTestcaseSuites projPath configRoot rootDir suites
      = (rawSelectors projPath configRoot rootDir suites).map
          (fun pr => encodeQueryParams (pr.1 ++ qm :: pr.2)) := by
  match suites with
  | [] =>
    rw [parseTestcaseSuites, rawSelectors]
    rfl
  | SuiteT.mk title file subs specs :: rest =>
    cases subs with
    | none =>
      rw [parseTestcaseSuites, rawSelectors]
      rw [parseTestcaseSuites_eq_raw projPath configRoot rootDir rest]
      simp [List.map_append, List.map_map]
    | some subSuites =>
      rw [parseTestcaseSuites, rawSelectors]
      rw [parseTestcaseSuites_eq_raw projPath configRoot rootDir rest]
      rw [parseTestcaseSuites_eq_raw projPath configRoot
        (some (resolveRoot configRoot rootDir)) subSuites]
      simp [List.map_append]

theorem rawSelectors_path_no_qm (projPath configRoot : List Char)
    (rootDir : Option (List Char)) (suites : List SuiteT)
    (hr : qm ∉ resolveRoot configRoot rootDir) (hf : filesNoQm suites = true) :
    ∀ pr ∈ rawSelectors projPath configRoot rootDir suites, qm ∉ pr.1 := by
  match suites with
  | [] => simp [rawSelectors]
  | SuiteT.mk title file subs specs :: rest =>
    cases subs with
    | some subSuites =>
      rw [filesNoQm, Bool.and_eq_true, Bool.and_eq_true] at hf
      obtain ⟨⟨hfile, hsubs⟩, hrest⟩ := hf
      intro pr hpr
      rw [rawSelectors] at hpr
      rcases List.mem_append.mp hpr with hpr | hpr
      · have hr2 : qm ∉ resolveRoot configRoot (some (resolveRoot configRoot rootDir)) := by
          rw [resolveRoot_idem]; exact hr
        exact rawSelectors_path_no_qm projPath configRoot _ subSuites hr2 hsubs pr hpr
      · exact rawSelectors_path_no_qm projPath configRoot rootDir rest hr hrest pr hpr
    | none =>
      rw [filesNoQm, Bool.and_eq_true, Bool.and_eq_true] at hf
      obtain ⟨⟨hfile, -⟩, hrest⟩ := hf
      intro pr hpr
      rw [rawSelectors] at hpr
      rcases List.mem_append.mp hpr with hpr | hpr
      · simp only [List.mem_map] at hpr
        obtain ⟨spec, -, hspec⟩ := hpr
        intro hq
        rw [← hspec] at hq
        have hq2 := mem_replaceFirst hq
        rcases List.mem_append.mp hq2 with h2 | h2
        · exact hr h2
        · rcases List.mem_cons.mp h2 with h3 | h3
          · exact absurd h3 (by decide)
          · have hfile2 : qm ∉ file := by simpa using hfile
            exact hfile2 h3
      · exact rawSelectors_path_no_qm projPath configRoot rootDir rest hr hrest pr hpr

/-! ## Reconciliation lemmas for `createTestResults` -/

theorem reconcile_mono (casePrefix : List Char) (oref : Option TestResultT)
    (ids : List (List Char)) (acc res : List TestResultT)
    (h : reconcile casePrefix oref ids acc = some res) :
    ∀ t ∈ acc, t ∈ res := by
  induction ids generalizing acc with
  | nil =>
    rw [reconcile] at h
    cases h
    exact fun t ht => ht
  | cons i rest ih =>
    rw [reconcile] at h
    cases hs : someM (matchName casePrefix i) acc with
    | none =>
      rw [hs] at h
      cases h
    | some b =>
      rw [hs, Option.some_bind] at h
      cases b with
      | true =>
        rw [if_pos rfl] at h
        exact ih acc h
      | false =>
        rw [if_neg Bool.false_ne_true] at h
        intro t ht
        exact ih _ h t (List.mem_append.mpr (Or.inl ht))

theorem someM_eq_true {f : TestResultT → Option Bool} {l : List TestResultT}
    (h : someM f l = some true) : ∃ t ∈ l, f t = some true := by
  induction l with
  | nil =>
    rw [someM] at h
    simp at h
  | cons t ts ih =>
    rw [someM] at h
    cases hf : f t with
    | none =>
      rw [hf] at h
      cases h
    | some b =>
      rw [hf] at h
      cases b with
      | true => exact ⟨t, List.mem_cons_self t ts, hf⟩
      | false =>
        obtain ⟨t2, ht2, hft2⟩ := ih h
        exact ⟨t2, List.mem_cons_of_mem t ht2, hft2⟩

theorem reconcile_covers (casePrefix : List Char) (ref : TestResultT)
    (identifier : List Char) (ids : List (List Char)) (acc res : List TestResultT)
    (h : reconcile casePrefix (some ref) ids acc = some res)
    (hmem : identifier ∈ ids)
    (hacc : ∀ t ∈ acc, matchName casePrefix identifier t ≠ some true)
    (halias : ∀ j ∈ ids, j ≠ identifier →
      decodeURIComponentJS (replaceFirst (encodeQueryParams (casePrefix ++ j)) casePrefix)
        ≠ some identifier) :
    ∃ t ∈ res, t.resultType = ResultTypeT.FAILED
      ∧ t.message = noResultsMessage ++ identifier := by
  induction ids generalizing acc with
  | nil => exact absurd hmem (List.not_mem_nil identifier)
  | cons j rest ih =>
    rw [reconcile] at h
    cases hs : someM (matchName casePrefix j) acc with
    | none =>
      rw [hs] at h
      cases h
    | some b =>
      rw [hs, Option.some_bind] at h
      by_cases hj : j = identifier
      · subst hj
        cases b with
        | true =>
          obtain ⟨t, ht, hft⟩ := someM_eq_true hs
          exact absurd hft (hacc t ht)
        | false =>
          rw [if_neg Bool.false_ne_true] at h
          have hres := reconcile_mono _ _ _ _ _ h (mkFallback casePrefix j ref)
            (List.mem_append.mpr (Or.inr (by simp [Option.elim])))
          exact ⟨mkFallback casePrefix j ref, hres, rfl, rfl⟩
      · have hmem2 : identifier ∈ rest := by
          rcases List.mem_cons.mp hmem with e | e
          · exact absurd e.symm hj
          · exact e
        have halias2 : ∀ j2 ∈ rest, j2 ≠ identifier →
            decodeURIComponentJS (replaceFirst (encodeQueryParams (casePrefix ++ j2))
              casePrefix) ≠ some identifier :=
          fun j2 hj2 => halias j2 (List.mem_cons_of_mem j hj2)
        cases b with
        | true =>
          rw [if_pos rfl] at h
          exact ih acc h hmem2 hacc halias2
        | false =>
          rw [if_neg Bool.false_ne_true] at h
          refine ih _ h hmem2 ?_ halias2
          intro t ht
          rcases List.mem_append.mp ht with ht2 | ht2
          · exact hacc t ht2
          · simp only [Option.elim, List.mem_singleton] at ht2
            subst ht2
            intro hcontra
            rw [matchName] at hcontra
            cases hd : decodeURIComponentJS
                (replaceFirst (encodeQueryParams (casePrefix ++ j)) casePrefix) with
            | none =>
              rw [show (mkFallback casePrefix j ref).test.name
                  = encodeQueryParams (casePrefix ++ j) from rfl] at hcontra
              rw [hd] at hcontra
              cases hcontra
            | some s =>
              rw [show (mkFallback casePrefix j ref).test.name
                  = encodeQueryParams (casePrefix ++ j) from rfl] at hcontra
              rw [hd] at hcontra
              have hsv : s = identifier := by simpa using hcontra
              exact halias j (List.mem_cons_self j rest) hj (hsv ▸ hd)

/-! ## Record lemmas for `parseErrorCases` -/

theorem getKey_setKey_same {α : Type} (m : List (List Char × α)) (k : List Char) (v : α) :
    getKey (setKey m k v) k = some v := by
  induction m with
  | nil => simp [setKey, getKey]
  | cons p rest ih =>
    obtain ⟨k2, v2⟩ := p
    by_cases h : k2 = k
    · subst h
      simp [setKey, getKey]
    · simp [setKey, getKey, h, ih]

theorem getKey_setKey_other {α : Type} (m : List (List Char × α)) (k k2 : List Char)
    (v : α) (hne : k2 ≠ k) : getKey (setKey m k v) k2 = getKey m k2 := by
  induction m with
  | nil => simp [setKey, getKey, Ne.symm hne]
  | cons p rest ih =>
    obtain ⟨k3, v3⟩ := p
    by_cases h : k3 = k
    · subst h
      have h2 : ¬ k3 = k2 := fun e => hne e.symm
      simp [setKey, getKey, h2]
    · by_cases h3 : k3 = k2
      · simp [setKey, getKey, h, h3, hne]
      · simp [setKey, getKey, h, h3, ih]

theorem getKey_foldl_not_mem {α : Type} (v : α) (keys : List (List Char))
    (c : List Char) (hc : c ∉ keys) (m : List (List Char × α)) :
    getKey (keys.foldl (fun m2 tc => setKey m2 tc v) m) c = getKey m c := by
  induction keys generalizing m with
  | nil => rfl
  | cons k rest ih =>
    have h1 : c ≠ k := fun e => hc (by simp [e])
    have h2 : c ∉ rest := fun e => hc (List.mem_cons_of_mem _ e)
    simp only [List.foldl_cons]
    rw [ih h2, getKey_setKey_other _ _ _ _ h1]

theorem getKey_setAll {α : Type} (v : α) (cases : List (List Char)) :
    ∀ (m : List (List Char × α)), ∀ c ∈ cases,
      getKey (cases.foldl (fun m2 tc => setKey m2 tc v) m) c = some v := by
  induction cases with
  | nil => intro m c hc; cases hc
  | cons c0 rest ih =>
    intro m c hc
    simp only [List.foldl_cons]
    by_cases hcr : c ∈ rest
    · exact ih _ c hcr
    · have hc0 : c = c0 := by
        rcases List.mem_cons.mp hc with e | e
        · exact e
        · exact absurd e hcr
      subst hc0
      rw [getKey_foldl_not_mem v rest c hcr, getKey_setKey_same]

theorem parseErrorCases_error_loop (parseDateMs : List Char → Rat) (stats : StatsT)
    (cases : List (List Char)) (errors : List ErrorT) :
    ∀ (e : ErrorT), errors.getLast? = some e →
      ∀ (m : List (List Char × List SpecResultT)), ∀ c ∈ cases,
        getKey (errors.foldl
          (fun m2 error => cases.foldl
            (fun m3 tc => setKey m3 tc [errorResultOf parseDateMs stats error]) m2) m) c
          = some [errorResultOf parseDateMs stats e] := by
  match errors with
  | [] =>
    intro e he
    simp at he
  | [e0] =>
    intro e he m c hc
    have he2 : e0 = e := by simpa using he
    subst he2
    simp only [List.foldl_cons, List.foldl_nil]
    exact getKey_setAll _ cases m c hc
  | e0 :: e1 :: rest2 =>
    intro e he m c hc
    have he2 : (e1 :: rest2).getLast? = some e := by
      rw [← List.getLast?_cons_cons]
      exact he
    simp only [List.foldl_cons]
    have hrec := parseErrorCases_error_loop parseDateMs stats cases (e1 :: rest2) e he2
      (cases.foldl (fun m3 tc => setKey m3 tc [errorResultOf parseDateMs stats e0]) m) c hc
    simpa [List.foldl_cons] using hrec

/-! ## Lemmas for `parsePlaywrightReport` -/

theorem mkLoadErrors_total (errors : List ErrorT)
    (h : ∀ e ∈ errors, hasSubstr e.message ("Instead change".data) = true →
      2 ≤ (e.message.splitOn nl).length) :
    ∃ les, mkLoadErrors errors = some les ∧ les.length = errors.length := by
  induction errors with
  | nil => exact ⟨[], rfl, rfl⟩
  | cons e rest ih =>
    obtain ⟨les, hles, hlen⟩ := ih (fun e2 he2 => h e2 (List.mem_cons_of_mem _ he2))
    have he : (mkLoadError e).isSome = true := by
      by_cases hin : hasSubstr e.message ("Instead change".data) = true
      · have h2 := h e (List.mem_cons_self _ _) hin
        cases hl : (e.message.splitOn nl)[1]? with
        | none =>
          rw [List.getElem?_eq_none_iff] at hl
          omega
        | some l1 => simp [mkLoadError, hin, hl]
      · simp [mkLoadError, hin]
    obtain ⟨le, hle⟩ := Option.isSome_iff_exists.mp he
    refine ⟨le :: les, ?_, by simp [hlen]⟩
    rw [mkLoadErrors, hle, Option.some_bind, hles]
    rfl

/-! ## Claim theorems -/

/-- C1: for every file path `p` containing no `?` and every title `t`,
grouping the selector `encodeQueryParams(p + "?" + t)` yields exactly one
group, whose key is `p` and whose single name is `encodeURIComponent t`,
and `decodeURIComponent` of that name recovers `t`. -/
theorem claim_selector_roundtrip (p t : List Char) (hp : qm ∉ p) :
    groupTestCasesByPath [encodeQueryParams (p ++ qm :: t)]
      = [(p, [encodeURIComponentJS t])]
    ∧ decodeURIComponentJS (encodeURIComponentJS t) = some t := by
  constructor
  · rw [encodeQueryParams_append hp]
    show addToGroup [] (splitSelector (p ++ qm :: encodeURIComponentJS t)).1
        (splitSelector (p ++ qm :: encodeURIComponentJS t)).2 = _
    rw [splitSelector_append hp]
    rfl
  · exact decode_encodeURIComponent t

theorem claim_selector_roundtrip_witness :
    (qm ∉ ("tests/a.spec.ts").data)
  ∧ (groupTestCasesByPath
        [encodeQueryParams (("tests/a.spec.ts").data ++ qm :: ("中 文?x").data)]
      = [(("tests/a.spec.ts").data, [encodeURIComponentJS (("中 文?x").data)])]
    ∧ decodeURIComponentJS (encodeURIComponentJS (("中 文?x").data))
        = some (("中 文?x").data)) :=
  ⟨by decide, claim_selector_roundtrip (("tests/a.spec.ts").data) (("中 文?x").data)
    (by decide)⟩

/-- C3: `groupTestCasesByPath` splits each selector at its first `?` (a
selector with no `?` contributes its whole text as key and the empty
string as name); the (path, name) pairs of the groups are a permutation
of the splits of the input, so the total number of names equals the input
length, and the group keys are exactly the distinct path parts. -/
theorem claim_group_partition (tcs : List (List Char)) :
    (groupPairs (groupTestCasesByPath tcs)).Perm (tcs.map splitSelector)
  ∧ ((groupTestCasesByPath tcs).map (fun g => g.2.length)).sum = tcs.length
  ∧ (∀ k, k ∈ groupKeys (groupTestCasesByPath tcs)
      ↔ ∃ tc ∈ tcs, (splitSelector tc).1 = k)
  ∧ (groupKeys (groupTestCasesByPath tcs)).Nodup
  ∧ (∀ tc, qm ∉ tc → splitSelector tc = (tc, []))
  ∧ (∀ tc, qm ∈ tc →
      tc = (splitSelector tc).1 ++ qm :: (splitSelector tc).2
        ∧ qm ∉ (splitSelector tc).1) := by
  have hperm : (groupPairs (groupTestCasesByPath tcs)).Perm (tcs.map splitSelector) := by
    have h := groupTestCasesByPath_foldl_perm tcs []
    simpa [groupTestCasesByPath, groupPairs] using h
  refine ⟨hperm, ?_, ?_, ?_, ?_, ?_⟩
  · have hlen := hperm.length_eq
    rw [groupPairs_length] at hlen
    simpa using hlen
  · intro k
    have h := groupTestCasesByPath_foldl_keys tcs [] k
    simpa [groupTestCasesByPath, groupKeys] using h
  · exact groupTestCasesByPath_foldl_nodup tcs [] (by simp [groupKeys])
  · exact fun tc h => splitSelector_no_qm h
  · exact fun tc h => ⟨splitSelector_recomposes h, qm_not_mem_takeWhile tc⟩

theorem claim_group_partition_witness :
    (qm ∉ ("b").data)
  ∧ splitSelector (("b").data) = (("b").data, [])
  ∧ groupTestCasesByPath [("a?x").data, ("b").data, ("a?y").data]
      = [(("a").data, [("x").data, ("y").data]), (("b").data, [[]])] :=
  ⟨by decide,
    (claim_group_partition [("a?x").data, ("b").data, ("a?y").data]).2.2.2.2.1
      (("b").data) (by decide),
    by decide⟩

/-- C7 counterexample: `handlePath("b", "a/b/c")` removes the inner
occurrence of `b/` and returns `a/c`, although `a/b/c` does not start
with `b/` — the claim that the input is then returned unchanged fails. -/
theorem claim_handlePath_counterexample :
    handlePath (("b").data) (("a/b/c").data) = ("a/c").data
  ∧ isPrefixB (("b/").data) (("a/b/c").data) = false
  ∧ handlePath (("b").data) (("a/b/c").data) ≠ ("a/b/c").data := by
  refine ⟨by decide, by decide, by decide⟩

/-- C7 (amended): `handlePath(p, f)` removes the first occurrence of
`p + "/"` anywhere in `f`: when `f` starts with `p + "/"` the leading
prefix is removed, when `f` does not contain `p + "/"` at all `f` is
returned unchanged, and in general the first occurrence is deleted. -/
theorem claim_handlePath_spec (projPath filePath : List Char) :
    (isPrefixB (projPath ++ [sl]) filePath = true →
      handlePath projPath filePath = filePath.drop (projPath.length + 1))
  ∧ (hasSubstr filePath (projPath ++ [sl]) = false →
      handlePath projPath filePath = filePath)
  ∧ (hasSubstr filePath (projPath ++ [sl]) = true →
      ∃ a b, filePath = a ++ (projPath ++ [sl]) ++ b
        ∧ handlePath projPath filePath = a ++ b) := by
  refine ⟨?_, ?_, ?_⟩
  · intro h
    rw [handlePath, replaceFirst_of_prefixB h]
    simp
  · intro h
    exact replaceFirst_of_no_substr h
  · intro h
    exact replaceFirst_of_substr h

theorem claim_handlePath_spec_witness :
    (isPrefixB (("p").data ++ [sl]) (("p/a.ts").data) = true)
  ∧ handlePath (("p").data) (("p/a.ts").data)
      = (("p/a.ts").data).drop ((("p").data).length + 1) :=
  ⟨by decide, (claim_handlePath_spec (("p").data) (("p/a.ts").data)).1 (by decide)⟩

/-- C8: `getTestcasePrefix` returns the empty string when the environment
value is unset or empty, otherwise the value with `/` appended exactly
when it does not already end in `/`; the result is empty or ends in `/`,
and the normalization is idempotent. -/
theorem claim_prefix_normalization (envVal : Option (List Char)) :
    ((envVal = none ∨ envVal = some []) → getTestcasePrefix envVal = [])
  ∧ (∀ v, envVal = some v → v ≠ [] →
      getTestcasePrefix envVal = if v.getLast? = some sl then v else v ++ [sl])
  ∧ (getTestcasePrefix envVal = [] ∨ (getTestcasePrefix envVal).getLast? = some sl)
  ∧ getTestcasePrefix (some (getTestcasePrefix envVal)) = getTestcasePrefix envVal := by
  match envVal with
  | none =>
    refine ⟨fun _ => rfl, ?_, Or.inl rfl, rfl⟩
    intro v hv
    cases hv
  | some v =>
    by_cases hv : v = []
    · subst hv
      refine ⟨fun _ => rfl, ?_, Or.inl rfl, rfl⟩
      intro v2 hv2 hne
      cases hv2
      exact absurd rfl hne
    · have e1 : getTestcasePrefix (some v)
          = if v.getLast? = some sl then v else v ++ [sl] := by
        simp [getTestcasePrefix, hv]
      refine ⟨?_, ?_, ?_, ?_⟩
      · rintro (h | h)
        · cases h
        · rw [Option.some.injEq] at h
          exact absurd h hv
      · intro v2 hv2 hne
        rw [Option.some.injEq] at hv2
        subst hv2
        exact e1
      · by_cases hsl : v.getLast? = some sl
        · rw [e1, if_pos hsl]
          exact Or.inr hsl
        · rw [e1, if_neg hsl]
          exact Or.inr (List.getLast?_concat v)
      · by_cases hsl : v.getLast? = some sl
        · have hres : getTestcasePrefix (some v) = v := by rw [e1, if_pos hsl]
          rw [hres]
          exact hres
        · have hres : getTestcasePrefix (some v) = v ++ [sl] := by rw [e1, if_neg hsl]
          rw [hres]
          have hne : v ++ [sl] ≠ [] := by simp
          simp [getTestcasePrefix, hne, List.getLast?_concat]

theorem claim_prefix_normalization_witness :
    getTestcasePrefix (some (("pre").data))
      = if (("pre").data).getLast? = some sl then ("pre").data
        else ("pre").data ++ [sl] :=
  (claim_prefix_normalization (some (("pre").data))).2.1 (("pre").data) rfl (by decide)

/-- C2 counterexample: with suite file `a?b` (title equal to the file, so
the raw title is the spec title `t` alone), the produced selector is
`root/a?b%3Ft`; the part after its first `?` is `b%3Ft`, not
`encodeURIComponent("t") = "t"`, so the claimed selector format fails. -/
theorem claim_parseTestcase_counterexample :
    parseTestcase (("proj").data) (("root").data) c2badSuites none
      = [("root/a?b%3Ft").data]
  ∧ ((("root/a?b%3Ft").data).dropWhile (· ≠ qm)).tail = ("b%3Ft").data
  ∧ encodeURIComponentJS (("t").data) = ("t").data
  ∧ ("b%3Ft").data ≠ ("t").data := by
  refine ⟨?_, by decide, by decide, by decide⟩
  rw [parseTestcase, c2badSuites, parseTestcaseSuites, parseTestcaseSuites]
  decide

/-- C2 (amended): provided the resolved root directory and every suite
file contain no `?`, every selector produced by `parseTestcase` has the
form `path + "?" + encodeURIComponent(raw title)`, where `(path, raw
title)` is a pair of the traversal (`rawSelectors`: raw title = suite
title joined to the spec title by a space when the suite title differs
from the suite file, spec title alone otherwise), the path contains no
`?`, and the part after the first `?` of the selector is exactly the
URL-component-encoded raw title. -/
theorem claim_parseTestcase_selector_form (projPath configRoot : List Char)
    (rootDir : Option (List Char)) (suites : List SuiteT)
    (hr : qm ∉ resolveRoot configRoot rootDir) (hf : filesNoQm suites = true) :
    ∀ sel ∈ parseTestcase projPath configRoot suites rootDir,
      ∃ pr ∈ rawSelectors projPath configRoot rootDir suites,
        sel = pr.1 ++ qm :: encodeURIComponentJS pr.2
        ∧ qm ∉ pr.1
        ∧ (sel.dropWhile (· ≠ qm)).tail = encodeURIComponentJS pr.2 := by
  intro sel hsel
  simp only [parseTestcase] at hsel
  have hsel2 := jsSetDedup_subset _ sel hsel
  rw [parseTestcaseSuites_eq_raw, List.mem_map] at hsel2
  obtain ⟨pr, hpr, hsel3⟩ := hsel2
  have hq := rawSelectors_path_no_qm projPath configRoot rootDir suites hr hf pr hpr
  refine ⟨pr, hpr, ?_, hq, ?_⟩
  · rw [← hsel3, encodeQueryParams_append hq]
  · rw [← hsel3, encodeQueryParams_append hq]
    obtain ⟨-, h2⟩ := takeWhile_append_qm hq (encodeURIComponentJS pr.2)
    rw [h2]
    rfl

theorem claim_parseTestcase_selector_form_witness :
    (qm ∉ resolveRoot (("root").data) none)
  ∧ (filesNoQm c2suites = true)
  ∧ (("root/a.spec.ts?suite%20one%20does%20x").data
      ∈ parseTestcase (("proj").data) (("root").data) c2suites none)
  ∧ (∃ pr ∈ rawSelectors (("proj").data) (("root").data) none c2suites,
      ("root/a.spec.ts?suite%20one%20does%20x").data
        = pr.1 ++ qm :: encodeURIComponentJS pr.2
      ∧ qm ∉ pr.1
      ∧ (((("root/a.spec.ts?suite%20one%20does%20x").data).dropWhile (· ≠ qm)).tail
          = encodeURIComponentJS pr.2)) := by
  have h1 : qm ∉ resolveRoot (("root").data) none := by decide
  have h2 : filesNoQm c2suites = true := by
    rw [c2suites, filesNoQm, filesNoQm]
    decide
  have h3 : ("root/a.spec.ts?suite%20one%20does%20x").data
      ∈ parseTestcase (("proj").data) (("root").data) c2suites none := by
    rw [parseTestcase, c2suites, parseTestcaseSuites, parseTestcaseSuites]
    decide
  exact ⟨h1, h2, h3,
    claim_parseTestcase_selector_form (("proj").data) (("root").data) none c2suites h1 h2
      _ h3⟩

/-- C5: when the report has no suites, `parseErrorCases` maps every
requested case to a single `failed` record — carrying the (last) report
error's message, stack, location and snippet when the errors array is
non-empty, and the fixed empty-log message when it is empty, with
start/end/duration derived from the report's stats — and when the suites
array is non-empty the returned record is empty. -/
theorem claim_parseErrorCases_spec (parseDateMs : List Char → Rat)
    (jsonData : JsonDataT) (cases : List (List Char)) :
    (jsonData.suites = [] → jsonData.errors = [] →
      ∀ c ∈ cases, getKey (parseErrorCases parseDateMs jsonData cases) c
        = some [{ projectID := none, result := ("failed").data,
                  duration := jsonData.stats.duration / 1000,
                  startTime := parseDateMs jsonData.stats.startTime / 1000,
                  endTime := (parseDateMs jsonData.stats.startTime
                    + jsonData.stats.duration) / 1000,
                  message := emptyLogMessage, content := emptyLogMessage,
                  owner := none, description := none, attachments := [] }])
  ∧ (jsonData.suites = [] → ∀ e, jsonData.errors.getLast? = some e →
      ∀ c ∈ cases, getKey (parseErrorCases parseDateMs jsonData cases) c
        = some [{ projectID := none, result := ("failed").data,
                  duration := jsonData.stats.duration / 1000,
                  startTime := parseDateMs jsonData.stats.startTime / 1000,
                  endTime := (parseDateMs jsonData.stats.startTime
                    + jsonData.stats.duration) / 1000,
                  message := e.message,
                  content := e.stack ++ "\nLocation: ".data
                    ++ locationString e.location ++ "\nSnippet:\n".data ++ e.snippet,
                  owner := none, description := none, attachments := [] }])
  ∧ (jsonData.suites ≠ [] → parseErrorCases parseDateMs jsonData cases = []) := by
  refine ⟨?_, ?_, ?_⟩
  · intro hs he c hc
    simp only [parseErrorCases]
    rw [if_pos (by simp [hs]), if_neg (by simp [he])]
    exact getKey_setAll _ cases [] c hc
  · intro hs e he c hc
    have hne : jsonData.errors ≠ [] := by
      intro h0
      rw [h0] at he
      simp at he
    simp only [parseErrorCases]
    rw [if_pos (by simp [hs]), if_pos (List.length_pos.mpr hne)]
    exact parseErrorCases_error_loop parseDateMs jsonData.stats cases jsonData.errors
      e he [] c hc
  · intro hs
    simp only [parseErrorCases]
    rw [if_neg (by simp [hs])]

theorem claim_parseErrorCases_spec_witness :
    (c5data.suites = [])
  ∧ (c5data.errors.getLast? = some c5err)
  ∧ getKey (parseErrorCases c5pd c5data [("c1").data]) (("c1").data)
      = some [{ projectID := none, result := ("failed").data,
                duration := c5data.stats.duration / 1000,
                startTime := c5pd c5data.stats.startTime / 1000,
                endTime := (c5pd c5data.stats.startTime + c5data.stats.duration) / 1000,
                message := c5err.message,
                content := c5err.stack ++ "\nLocation: ".data
                  ++ locationString c5err.location ++ "\nSnippet:\n".data ++ c5err.snippet,
                owner := none, description := none, attachments := [] }] :=
  ⟨rfl, rfl,
    (claim_parseErrorCases_spec c5pd c5data [("c1").data]).2.1 rfl c5err rfl
      (("c1").data) (by simp)⟩

/-- C6 counterexample: a valid report with a non-empty errors array and
`stats.expected = 0` whose single error message contains `Instead change`
on a single line: `error.message.split('\n')[1].trim()` throws, the catch
produces the JSON-parse error, and no `playwright-test-load-error` entry
appears, contrary to the claim. -/
theorem claim_parseReport_counterexample :
    c6badReport.errors ≠ []
  ∧ c6badReport.stats.expected = 0
  ∧ parsePlaywrightReport (some c6badReport)
      = [{ name := parseErrorName, message := parseFailMessage }]
  ∧ ∀ le ∈ parsePlaywrightReport (some c6badReport), le.name ≠ loadErrorName := by
  refine ⟨by decide, rfl, by decide, by decide⟩

/-- C6 (amended): for input that is not valid JSON the result is exactly
one LoadError named `playwright-json-parse-error`; for a valid report with
a non-empty errors array, `stats.expected = 0`, and every error message
containing `Instead change` having a second line, the result is the
per-error entries followed by one LoadError named
`playwright-test-load-error`. -/
theorem claim_parseReport_spec :
    (parsePlaywrightReport none
      = [{ name := parseErrorName, message := parseFailMessage }])
  ∧ (∀ report : PlaywrightReportT,
      report.errors ≠ [] →
      report.stats.expected = 0 →
      (∀ e ∈ report.errors, hasSubstr e.message (("Instead change").data) = true →
        2 ≤ (e.message.splitOn nl).length) →
      ∃ les, mkLoadErrors report.errors = some les
        ∧ les.length = report.errors.length
        ∧ parsePlaywrightReport (some report)
            = les ++ [{ name := loadErrorName, message := loadErrorMessage }]) := by
  constructor
  · rfl
  · intro report hne hexp h
    obtain ⟨les, hles, hlen⟩ := mkLoadErrors_total report.errors h
    refine ⟨les, hles, hlen, ?_⟩
    simp only [parsePlaywrightReport, Option.some_bind]
    rw [hles]
    simp only [Option.map_some', Option.getD_some]
    rw [if_pos ⟨hexp, List.length_pos.mpr hne⟩]

theorem claim_parseReport_spec_witness :
    (c6goodReport.errors ≠ [])
  ∧ (c6goodReport.stats.expected = 0)
  ∧ (∃ les, mkLoadErrors c6goodReport.errors = some les
      ∧ les.length = c6goodReport.errors.length
      ∧ parsePlaywrightReport (some c6goodReport)
          = les ++ [{ name := loadErrorName, message := loadErrorMessage }]) :=
  ⟨by decide, rfl,
    claim_parseReport_spec.2 c6goodReport (by decide) rfl (by decide)⟩

/-- C9 counterexample: the non-directory selector `a?b c` matches the test
case `x/a?b%20c` (the code tests containment of the query-encoded
selector), although neither the selector itself nor the selector with `/`
appended is a substring of the test case, so matching is not plain
substring containment. -/
theorem claim_filterTestcases_counterexample :
    filterTestcases c9fsClass [("a?b c").data] [("x/a?b%20c").data] false
      = [("x/a?b%20c").data]
  ∧ hasSubstr (("x/a?b%20c").data) (("a?b c").data) = false
  ∧ hasSubstr (("x/a?b%20c").data) (("a?b c").data ++ [sl]) = false := by
  refine ⟨by decide, by decide, by decide⟩

theorem length_filter_partition {α : Type} (p : α → Bool) (l : List α) :
    (l.filter p).length + (l.filter (fun a => !(p a))).length = l.length := by
  induction l with
  | nil => rfl
  | cons a l ih =>
    by_cases h : p a = true
    · simp [List.filter_cons, h]
      omega
    · have h2 : p a = false := by simpa using h
      simp [List.filter_cons, h2]
      omega

/-- C9 (amended): with an empty selector list `filterTestcases` returns
the parsed list unchanged (for either value of `exclude`); with a
non-empty selector list a case appears with `exclude = false` exactly when
some selector matches it (containment of `selector + "/"` for directory
selectors and of `encodeQueryParams(selector)` otherwise) and with
`exclude = true` exactly when none does, and the two calls partition the
input list. -/
theorem claim_filterTestcases_spec (fsClass : List Char → Int)
    (testSelectors parsedTestcases : List (List Char)) :
    (testSelectors = [] → ∀ exclude,
      filterTestcases fsClass testSelectors parsedTestcases exclude = parsedTestcases)
  ∧ (testSelectors ≠ [] →
      (∀ tc, tc ∈ filterTestcases fsClass testSelectors parsedTestcases false
        ↔ tc ∈ parsedTestcases
          ∧ testSelectors.any (selectorMatches fsClass tc) = true)
      ∧ (∀ tc, tc ∈ filterTestcases fsClass testSelectors parsedTestcases true
        ↔ tc ∈ parsedTestcases
          ∧ testSelectors.any (selectorMatches fsClass tc) = false)
      ∧ (filterTestcases fsClass testSelectors parsedTestcases false).length
          + (filterTestcases fsClass testSelectors parsedTestcases true).length
          = parsedTestcases.length) := by
  constructor
  · intro h exclude
    simp only [filterTestcases, if_pos h]
  · intro h
    have e1 : filterTestcases fsClass testSelectors parsedTestcases false
        = parsedTestcases.filter
            (fun tc => testSelectors.any (selectorMatches fsClass tc)) := by
      simp only [filterTestcases, if_neg h]
      rfl
    have e2 : filterTestcases fsClass testSelectors parsedTestcases true
        = parsedTestcases.filter
            (fun tc => !(testSelectors.any (selectorMatches fsClass tc))) := by
      simp only [filterTestcases, if_neg h]
      rfl
    refine ⟨?_, ?_, ?_⟩
    · intro tc
      rw [e1, List.mem_filter]
    · intro tc
      rw [e2, List.mem_filter]
      simp only [Bool.not_eq_true']
    · rw [e1, e2]
      exact length_filter_partition _ _

theorem claim_filterTestcases_spec_witness :
    (([("dir").data] : List (List Char)) ≠ [])
  ∧ ((("dir/t.ts?a").data ∈ filterTestcases c9fsClass2 [("dir").data]
        [("dir/t.ts?a").data, ("other/t.ts?b").data] false)
      ↔ (("dir/t.ts?a").data ∈ [("dir/t.ts?a").data, ("other/t.ts?b").data]
        ∧ [("dir").data].any (selectorMatches c9fsClass2 (("dir/t.ts?a").data)) = true)) :=
  ⟨by decide,
    ((claim_filterTestcases_spec c9fsClass2 [("dir").data]
      [("dir/t.ts?a").data, ("other/t.ts?b").data]).2 (by decide)).1 (("dir/t.ts?a").data)⟩

/-- C10: the status mapping of `createTestResults` is binary: a produced
result is SUCCEED exactly when its status string equals `passed` and
FAILED for every other status, the per-result log level is INFO exactly
when the status is `passed` and ERROR otherwise; and every result pushed
by the first loop of `createTestResults` is built this way from a
produced entry among the identifiers. -/
theorem claim_status_mapping :
    (∀ (toIso : Rat → List Char) (casePrefix testCase : List Char) (r : SpecResultT),
      ((mkTestResult toIso casePrefix testCase r).resultType = ResultTypeT.SUCCEED
        ↔ r.result = ("passed").data)
      ∧ ((mkTestResult toIso casePrefix testCase r).resultType = ResultTypeT.FAILED
        ↔ r.result ≠ ("passed").data)
      ∧ (∀ step ∈ (mkTestResult toIso casePrefix testCase r).steps,
          ∀ lg ∈ step.logs,
            (lg.level = LogLevelT.INFO ↔ r.result = ("passed").data)
            ∧ (lg.level = LogLevelT.ERROR ↔ r.result ≠ ("passed").data)))
  ∧ (∀ (toIso : Rat → List Char) (casePrefix : List Char) (fileMode : Bool)
      (output : List (List Char × List SpecResultT)) (ids : List (List Char)),
      ∀ t ∈ loop1Results toIso casePrefix fileMode output ids,
        ∃ entry ∈ output, ∃ r ∈ entry.2,
          isInIdentifiers fileMode ids entry.1 = true
          ∧ t = mkTestResult toIso casePrefix entry.1 r) := by
  constructor
  · intro toIso casePrefix testCase r
    by_cases h : r.result = ("passed").data
    · refine ⟨?_, ?_, ?_⟩ <;> simp [mkTestResult, h]
    · refine ⟨?_, ?_, ?_⟩ <;> simp [mkTestResult, h]
  · intro toIso casePrefix fileMode output ids t ht
    simp only [loop1Results, List.mem_flatMap] at ht
    obtain ⟨entry, hentry, ht2⟩ := ht
    by_cases hin : isInIdentifiers fileMode ids entry.1 = true
    · rw [if_pos hin] at ht2
      rw [List.mem_map] at ht2
      obtain ⟨r, hr, ht3⟩ := ht2
      exact ⟨entry, hentry, r, hr, hin, ht3.symm⟩
    · rw [if_neg hin] at ht2
      exact absurd ht2 (List.not_mem_nil t)

theorem claim_status_mapping_witness :
    (mkTestResult c4toIso [] (("f.spec.ts").data) c10skipped).resultType
      = ResultTypeT.FAILED := by
  have h := (claim_status_mapping.1 c4toIso [] (("f.spec.ts").data) c10skipped).2.1
  exact h.mpr (by decide)

/-- C4 counterexample: identifiers `a%3F` and `a?`, one produced FAILED
result outside the list, no produced result matching `a?`: the fallback
created earlier for `a%3F` has a name that decodes to `a?`, so the
reconciliation loop believes `a?` already has a result and creates no
FAILED entry bearing the message `No test results found for this
identifier: a?`, contrary to the claim. -/
theorem claim_reconciliation_counterexample :
    createTestResults c4toIso c4env c4out c4aliasIds = some c4aliasRes
  ∧ (("a?").data ∈ c4aliasIds)
  ∧ (loop1Results c4toIso (getTestcasePrefix c4env.testcasePrefixVar)
      (decide (c4env.fileModeVar = some (("1").data))) c4out c4aliasIds = [])
  ∧ ((referenceFailed c4toIso (getTestcasePrefix c4env.testcasePrefixVar)
      (decide (c4env.fileModeVar = some (("1").data))) c4out c4aliasIds).isSome = true)
  ∧ (∀ t ∈ c4aliasRes,
      ¬ (t.resultType = ResultTypeT.FAILED
        ∧ t.message = noResultsMessage ++ ("a?").data)) := by
  refine ⟨by decide, by decide, by decide, by decide, by decide⟩

/-- C4 (amended): if the call returns, the identifier has no matching
produced result, no other requested identifier's normalized fallback name
decodes to it, and some produced result outside the identifier list is
FAILED (so a reference failed test exists), then the returned list
contains a FAILED result for that identifier whose message is
`No test results found for this identifier: ` followed by the
identifier. -/
theorem claim_reconciliation_fallback (toIso : Rat → List Char) (env : EnvCfg)
    (output : List (List Char × List SpecResultT)) (testIdentifiers : List (List Char))
    (identifier : List Char) (res : List TestResultT) (ref : TestResultT)
    (hsucc : createTestResults toIso env output testIdentifiers = some res)
    (hmem : identifier ∈ testIdentifiers)
    (hprod : ∀ t ∈ loop1Results toIso (getTestcasePrefix env.testcasePrefixVar)
        (decide (env.fileModeVar = some (("1").data))) output testIdentifiers,
      matchName (getTestcasePrefix env.testcasePrefixVar) identifier t ≠ some true)
    (href : referenceFailed toIso (getTestcasePrefix env.testcasePrefixVar)
        (decide (env.fileModeVar = some (("1").data))) output testIdentifiers = some ref)
    (halias : ∀ j ∈ testIdentifiers, j ≠ identifier →
      decodeURIComponentJS (replaceFirst
          (encodeQueryParams (getTestcasePrefix env.testcasePrefixVar ++ j))
          (getTestcasePrefix env.testcasePrefixVar))
        ≠ some identifier) :
    ∃ t ∈ res, t.resultType = ResultTypeT.FAILED
      ∧ t.message = noResultsMessage ++ identifier := by
  simp only [createTestResults] at hsucc
  rw [href] at hsucc
  exact reconcile_covers _ ref identifier testIdentifiers _ res hsucc hmem hprod halias

theorem claim_reconciliation_fallback_witness :
    (createTestResults c4toIso c4env c4out c4ids = some c4res)
  ∧ (("y").data ∈ c4ids)
  ∧ (∃ t ∈ c4res, t.resultType = ResultTypeT.FAILED
      ∧ t.message = noResultsMessage ++ ("y").data) := by
  have h1 : createTestResults c4toIso c4env c4out c4ids = some c4res := by decide
  have h2 : ("y").data ∈ c4ids := by decide
  have h3 : ∀ t ∈ loop1Results c4toIso (getTestcasePrefix c4env.testcasePrefixVar)
      (decide (c4env.fileModeVar = some (("1").data))) c4out c4ids,
      matchName (getTestcasePrefix c4env.testcasePrefixVar) (("y").data) t ≠ some true := by
    intro t ht
    rw [show loop1Results c4toIso (getTestcasePrefix c4env.testcasePrefixVar)
        (decide (c4env.fileModeVar = some (("1").data))) c4out c4ids
        = [] from rfl] at ht
    exact absurd ht (List.not_mem_nil t)
  have h4 : referenceFailed c4toIso (getTestcasePrefix c4env.testcasePrefixVar)
      (decide (c4env.fileModeVar = some (("1").data))) c4out c4ids = some c4ref := rfl
  have h5 : ∀ j ∈ c4ids, j ≠ ("y").data →
      decodeURIComponentJS (replaceFirst
          (encodeQueryParams (getTestcasePrefix c4env.testcasePrefixVar ++ j))
          (getTestcasePrefix c4env.testcasePrefixVar))
        ≠ some (("y").data) := by
    intro j hj hne
    simp only [c4ids, List.mem_singleton] at hj
    exact absurd hj hne
  exact ⟨h1, h2, claim_reconciliation_fallback c4toIso c4env c4out c4ids (("y").data)
    c4res c4ref h1 h2 h3 h4 h5⟩

end PwX

